import Mathlib

/-!
Verification of the AD5252 digital potentiometer driver, `src/src/main.cpp`.

A shallow embedding of the resistance codec (`uint8ToResistance`,
`resistanceToUint8`) and of the two I2C transactions (`writeRDAC`, `readRDAC`).

Numbers.

* `uint8_t` and `int` values are `ℕ` / `ℤ`; every narrowing to `uint8_t` is an
  explicit `% 256`.
* `float` and `double` values are rationals.  Every arithmetic result is passed
  through an explicit round-to-nearest-even onto the binary32 (`toFloat`) or
  binary64 (`toDouble`) grid, at the places where C++ performs the operation in
  that type.  The target named by the source is the ESP8266, whose `double` is
  binary64.  Overflow to infinity is not modelled: the codec only performs
  arithmetic on operands bounded by `256 * 1080`.  Infinities and NaN are not
  values of the model.
* The conversion `(uint8_t)x` of a floating value truncates toward zero.  When
  the truncated value is not in `0..255` the behaviour of the C++ conversion is
  undefined, and the model has no result (`none`).  Inside the guard of
  `resistanceToUint8` this happens for exactly one operand, `256.0`, reached at
  `value = 1080`.

Bus.

The `Wire` object of the Arduino core is not part of the repository.  It is a
parameter: a record of its primitives acting on an arbitrary device state.  The
driver runs on a `Sys`, which pairs the device state with the list of primitive
calls issued so far.

`Serial` diagnostics are observational only and are left out.
-/

namespace AD5252

/-! ## Floating point -/

/-- Nearest integer, ties to the even neighbour. -/
def roundHalfEven (x : ℚ) : ℤ :=
  if x - ⌊x⌋ < 1 / 2 then ⌊x⌋
  else if 1 / 2 < x - ⌊x⌋ then ⌊x⌋ + 1
  else if ⌊x⌋ % 2 = 0 then ⌊x⌋ else ⌊x⌋ + 1

/-- Exponent of the unit in the last place of `x` in a binary format with `p`
significand bits whose smallest subnormal is `2 ^ emin`. -/
def ulpExp (p : ℕ) (emin : ℤ) (x : ℚ) : ℤ :=
  max (Int.log 2 |x| + 1 - p) emin

/-- Round to nearest, ties to even, in the format `(p, emin)`. -/
def roundNE (p : ℕ) (emin : ℤ) (x : ℚ) : ℚ :=
  roundHalfEven (x / 2 ^ ulpExp p emin x) * 2 ^ ulpExp p emin x

/-- Rounding to IEEE binary32 (`float`). -/
def toFloat (x : ℚ) : ℚ := roundNE 24 (-149) x

/-- Rounding to IEEE binary64 (`double`). -/
def toDouble (x : ℚ) : ℚ := roundNE 53 (-1074) x

/-- The finite values of type `float`. -/
def IsFloat32 (x : ℚ) : Prop :=
  ∃ m e : ℤ, |m| < 2 ^ 24 ∧ -149 ≤ e ∧ e ≤ 104 ∧ x = m * 2 ^ e

/-- Truncation toward zero, as in a floating to integer conversion. -/
def truncToInt (x : ℚ) : ℤ := if 0 ≤ x then ⌊x⌋ else ⌈x⌉

/-- The conversion `(uint8_t)x` of a floating value: the value truncated toward
zero when it is representable in `uint8_t`, and no result otherwise (the
conversion is then undefined). -/
def castUint8 (x : ℚ) : Option ℤ :=
  if 0 ≤ truncToInt x ∧ truncToInt x ≤ 255 then some (truncToInt x) else none

/-! ## Constants -/

/-- The I2C base address of the AD5252, `I2C_Address 0x2C`. -/
def I2C_Address : ℕ := 0x2C

/-- Resistance from the A to the B pin in ohm, `R_AB_OHM 1080`. -/
def R_AB_OHM : ℤ := 1080

/-! ## Resistance codec -/

/-- Source `float uint8ToResistance(uint8_t value)`:
`return (((float)(256-value))/256.0)*R_AB_OHM;`
The subtraction is done in `int`, converted to `float`; the division and the
multiplication are done in `double`; the result is converted to `float`. -/
def uint8ToResistance (value : ℕ) : ℚ :=
  toFloat (toDouble (toDouble (toFloat ((256 - (value : ℤ) : ℤ) : ℚ) / 256) * (R_AB_OHM : ℚ)))

/-- Source `uint8_t resistanceToUint8(float value)`:
the guard returns 127; otherwise
`return (256 - (uint8_t)((value*256.0)/R_AB_OHM));`
with product and quotient in `double`, the subtraction in `int`, and the result
narrowed to `uint8_t`.  There is no result when the conversion to `uint8_t` is
undefined. -/
def resistanceToUint8 (value : ℚ) : Option ℕ :=
  if value > (R_AB_OHM : ℚ) ∨ value < 0 then some 127
  else (castUint8 (toDouble (toDouble (value * 256) / (R_AB_OHM : ℚ)))).map
    (fun t => ((256 - t) % 256).toNat)

/-! ## Bus transport -/

/-- One call of a primitive of the `Wire` object. -/
inductive WireCall where
  | beginTransmission (address : ℕ)
  | write (byte : ℕ)
  | endTransmission
  | requestFrom (address quantity : ℕ)
  | available
  | read
  deriving DecidableEq, Repr

/-- The `Wire` object, as far as the driver uses it, over a device state `σ`.
`endTransmission` reports the status, `available` the number of buffered
bytes, `read` the next byte as an `int`.  The results of `write` and
`requestFrom` are not used by the driver and are left out. -/
structure Wire (σ : Type) where
  beginTransmission : ℕ → σ → σ
  write : ℕ → σ → σ
  endTransmission : σ → ℕ × σ
  requestFrom : ℕ → ℕ → σ → σ
  available : σ → ℤ × σ
  read : σ → ℤ × σ

/-- Device state together with the primitive calls issued so far, oldest first. -/
structure Sys (σ : Type) where
  dev : σ
  calls : List WireCall

/-- Call of `Wire.beginTransmission(address)`, recorded in the call list. -/
def busBegin {σ : Type} (W : Wire σ) (address : ℕ) (s : Sys σ) : Sys σ :=
  ⟨W.beginTransmission address s.dev, s.calls ++ [WireCall.beginTransmission address]⟩

/-- Call of `Wire.write(byte)`, recorded in the call list. -/
def busWrite {σ : Type} (W : Wire σ) (byte : ℕ) (s : Sys σ) : Sys σ :=
  ⟨W.write byte s.dev, s.calls ++ [WireCall.write byte]⟩

/-- Call of `Wire.endTransmission()`, recorded in the call list. -/
def busEnd {σ : Type} (W : Wire σ) (s : Sys σ) : ℕ × Sys σ :=
  ((W.endTransmission s.dev).1, ⟨(W.endTransmission s.dev).2, s.calls ++ [WireCall.endTransmission]⟩)

/-- Call of `Wire.requestFrom(address, quantity)`, recorded in the call list. -/
def busRequest {σ : Type} (W : Wire σ) (address quantity : ℕ) (s : Sys σ) : Sys σ :=
  ⟨W.requestFrom address quantity s.dev, s.calls ++ [WireCall.requestFrom address quantity]⟩

/-- Call of `Wire.available()`, recorded in the call list. -/
def busAvailable {σ : Type} (W : Wire σ) (s : Sys σ) : ℤ × Sys σ :=
  ((W.available s.dev).1, ⟨(W.available s.dev).2, s.calls ++ [WireCall.available]⟩)

/-- Call of `Wire.read()`, recorded in the call list. -/
def busRead {σ : Type} (W : Wire σ) (s : Sys σ) : ℤ × Sys σ :=
  ((W.read s.dev).1, ⟨(W.read s.dev).2, s.calls ++ [WireCall.read]⟩)

/-! ## Wiper transactions -/

/-- Source `uint8_t writeRDAC(uint8_t channel, uint8_t value)`: the return value and
the system afterwards. -/
def writeRDAC {σ : Type} (W : Wire σ) (channel value : ℕ) (s : Sys σ) : ℕ × Sys σ :=
  if channel ≠ 1 ∧ channel ≠ 3 then (1, s)
  else
    let s1 := busBegin W I2C_Address s
    let s2 := busWrite W channel s1
    let s3 := busWrite W value s2
    let r := busEnd W s3
    let error := r.1 % 256
    if error ≠ 0 then (error, r.2)
    else (0, r.2)

/-- Source `uint8_t readRDAC(uint8_t channel, uint8_t *value)`: the return value, the
content of `*value` afterwards (`value` is its content before), and the system
afterwards. -/
def readRDAC {σ : Type} (W : Wire σ) (channel value : ℕ) (s : Sys σ) : ℕ × ℕ × Sys σ :=
  if channel ≠ 1 ∧ channel ≠ 3 then (1, value, s)
  else
    let s1 := busBegin W I2C_Address s
    let s2 := busWrite W channel s1
    let r1 := busEnd W s2
    let r2 := busEnd W r1.2
    let error := r2.1 % 256
    if error ≠ 0 then (error, value, r2.2)
    else
      let s5 := busRequest W I2C_Address 1 r2.2
      let a := busAvailable W s5
      let d : ℤ × Sys σ := if a.1 = 1 then busRead W a.2 else (0, a.2)
      if d.1 > 255 ∨ d.1 < 0 then (2, value, d.2)
      else (0, (d.1 % 256).toNat, d.2)

/-! ## Test transports -/

/-- Modelled from the spec: state of the echoing mock transport of the
write/read symmetry property (the repository has no test transport): the stored
code of each channel, the selected channel, the bytes queued for transmission
and the bytes received. -/
structure EchoState where
  rdac : ℕ → ℕ
  selected : ℕ
  tx : List ℕ
  rx : List ℕ

/-- Modelled from the spec: closing a transaction on the echoing mock.  A
2-byte transaction `[channel, code]` stores the code for the channel, a 1-byte
transaction `[channel]` selects the channel, anything else has no effect. -/
def EchoState.close (s : EchoState) : EchoState :=
  match s.tx with
  | [channel, code] => { s with rdac := Function.update s.rdac channel code, tx := [] }
  | [channel] => { s with selected := channel, tx := [] }
  | _ => { s with tx := [] }

/-- Modelled from the spec: the mock transport of the write/read symmetry
property, which echoes the last written wiper code.  Every close reports status
0; a 1-byte read request makes exactly one byte available, the stored code of
the selected channel. -/
def echoWire : Wire EchoState where
  beginTransmission := fun _ s => { s with tx := [] }
  write := fun b s => { s with tx := s.tx ++ [b] }
  endTransmission := fun s => (0, s.close)
  requestFrom := fun _ n s => if n = 1 then { s with rx := [s.rdac s.selected] } else { s with rx := [] }
  available := fun s => ((s.rx.length : ℤ), s)
  read := fun s =>
    match s.rx with
    | [] => (-1, s)
    | b :: rest => ((b : ℤ), { s with rx := rest })

/-- State of the scripted mock: the statuses the next closes report, the
count `available` reports, and the byte `read` returns. -/
structure Script where
  statuses : List ℕ
  avail : ℤ
  data : ℤ
  deriving DecidableEq, Repr

/-- A scripted transport, a concrete instance of the `Wire` parameter: each
close reports the next scripted status (0 when the script is exhausted),
`available` and `read` report the scripted count and byte. -/
def scriptWire : Wire Script where
  beginTransmission := fun _ s => s
  write := fun _ s => s
  endTransmission := fun s =>
    match s.statuses with
    | [] => (0, s)
    | st :: rest => (st, { s with statuses := rest })
  requestFrom := fun _ _ s => s
  available := fun s => (s.avail, s)
  read := fun s => (s.data, s)

/-! ## Rounding lemmas -/

theorem roundHalfEven_intCast (n : ℤ) : roundHalfEven (n : ℚ) = n := by
  simp [roundHalfEven]

theorem floor_le_roundHalfEven (x : ℚ) : ⌊x⌋ ≤ roundHalfEven x := by
  unfold roundHalfEven
  split_ifs <;> omega

theorem roundHalfEven_le (x : ℚ) : (roundHalfEven x : ℚ) ≤ x + 1 / 2 := by
  have h1 : (⌊x⌋ : ℚ) ≤ x := Int.floor_le x
  unfold roundHalfEven
  split_ifs with h2 h3 h4
  · linarith
  · push_cast; linarith
  · linarith
  · push_cast; linarith

theorem ulpExp_le (p : ℕ) (emin j : ℤ) (x : ℚ) (hx : x ≠ 0)
    (hlt : |x| < 2 ^ ((p : ℤ) + j)) (hj : emin ≤ j) : ulpExp p emin x ≤ j := by
  have hpos : 0 < |x| := abs_pos.mpr hx
  have hlog : Int.log 2 |x| < (p : ℤ) + j := by
    have := (Int.lt_zpow_iff_log_lt (R := ℚ) (b := 2) (by norm_num) hpos (x := (p : ℤ) + j)).mp
      (by exact_mod_cast hlt)
    exact this
  unfold ulpExp
  apply max_le
  · omega
  · exact hj

theorem roundNE_zero (p : ℕ) (emin : ℤ) : roundNE p emin 0 = 0 := by
  simp [roundNE, roundHalfEven]

theorem roundNE_fix (p : ℕ) (emin : ℤ) (m j : ℤ) (hm : |m| < 2 ^ p) (hj : emin ≤ j) :
    roundNE p emin ((m : ℚ) * 2 ^ j) = (m : ℚ) * 2 ^ j := by
  by_cases hm0 : m = 0
  · subst hm0; simp [roundNE_zero]
  have h2 : (0 : ℚ) < 2 ^ j := zpow_pos (by norm_num) j
  have hx : (m : ℚ) * 2 ^ j ≠ 0 := mul_ne_zero (by exact_mod_cast hm0) (ne_of_gt h2)
  have hlt : |(m : ℚ) * 2 ^ j| < 2 ^ ((p : ℤ) + j) := by
    rw [abs_mul, abs_of_pos h2, zpow_add₀ (by norm_num : (2 : ℚ) ≠ 0)]
    apply mul_lt_mul_of_pos_right _ h2
    have : ((|m| : ℤ) : ℚ) < ((2 ^ p : ℤ) : ℚ) := by exact_mod_cast hm
    simpa using this
  have hle := ulpExp_le p emin j _ hx hlt hj
  unfold roundNE
  set f := ulpExp p emin ((m : ℚ) * 2 ^ j) with hf
  obtain ⟨k, hk⟩ : ∃ k : ℕ, j = f + k := ⟨(j - f).toNat, by omega⟩
  have hsplit : (m : ℚ) * 2 ^ j / 2 ^ f = ((m * 2 ^ k : ℤ) : ℚ) := by
    rw [hk, zpow_add₀ (by norm_num : (2 : ℚ) ≠ 0)]
    have : (0 : ℚ) < 2 ^ f := zpow_pos (by norm_num) f
    field_simp
    ring
  rw [hsplit, roundHalfEven_intCast, hk, zpow_add₀ (by norm_num : (2 : ℚ) ≠ 0), zpow_natCast]
  push_cast
  ring

theorem toFloat_fix (m j : ℤ) (hm : |m| < 2 ^ 24) (hj : -149 ≤ j) :
    toFloat ((m : ℚ) * 2 ^ j) = (m : ℚ) * 2 ^ j :=
  roundNE_fix 24 (-149) m j hm hj

theorem toDouble_fix (m j : ℤ) (hm : |m| < 2 ^ 53) (hj : -1074 ≤ j) :
    toDouble ((m : ℚ) * 2 ^ j) = (m : ℚ) * 2 ^ j :=
  roundNE_fix 53 (-1074) m j hm hj


theorem toFloat_intCast (n : ℤ) (hn : |n| < 2 ^ 24) : toFloat (n : ℚ) = n := by
  have := toFloat_fix n 0 hn (by norm_num)
  simpa using this

theorem toDouble_intCast (n : ℤ) (hn : |n| < 2 ^ 53) : toDouble (n : ℚ) = n := by
  have := toDouble_fix n 0 hn (by norm_num)
  simpa using this

/-- On the 8-bit codes every floating operation of `uint8ToResistance` is exact. -/
theorem uint8ToResistance_eq (c : ℕ) (hc : c ≤ 255) :
    uint8ToResistance c = ((256 : ℚ) - c) * 1080 / 256 := by
  unfold uint8ToResistance R_AB_OHM
  have h1 : toFloat ((256 - (c : ℤ) : ℤ) : ℚ) = ((256 - (c : ℤ) : ℤ) : ℚ) :=
    toFloat_intCast _ (by rw [abs_lt]; constructor <;> omega)
  have h2 : toDouble (((256 - (c : ℤ) : ℤ) : ℚ) / 256) = ((256 - (c : ℤ) : ℤ) : ℚ) * 2 ^ (-8 : ℤ) := by
    have := toDouble_fix (256 - (c : ℤ)) (-8) (by rw [abs_lt]; constructor <;> omega) (by norm_num)
    rw [← this]
    congr 1
    rw [zpow_neg]; norm_num; ring
  have h3 : toDouble (((256 - (c : ℤ) : ℤ) : ℚ) * 2 ^ (-8 : ℤ) * ((1080 : ℤ) : ℚ))
      = (((256 - (c : ℤ)) * 135 : ℤ) : ℚ) * 2 ^ (-5 : ℤ) := by
    have := toDouble_fix ((256 - (c : ℤ)) * 135) (-5) (by rw [abs_lt]; constructor <;> omega)
      (by norm_num)
    rw [← this]
    congr 1
    rw [zpow_neg, zpow_neg]; push_cast; norm_num; ring
  have h4 : toFloat ((((256 - (c : ℤ)) * 135 : ℤ) : ℚ) * 2 ^ (-5 : ℤ))
      = (((256 - (c : ℤ)) * 135 : ℤ) : ℚ) * 2 ^ (-5 : ℤ) :=
    toFloat_fix _ _ (by rw [abs_lt]; constructor <;> omega) (by norm_num)
  rw [h1, h2, h3, h4, zpow_neg]
  push_cast
  norm_num
  ring


theorem truncToInt_intCast (n : ℤ) : truncToInt (n : ℚ) = n := by
  unfold truncToInt
  split_ifs <;> simp

/-- Round trip on the codes `1..255`: the quotient `256 - c` fits in 8 bits and
converting a code to a resistance and back returns the code. -/
theorem resistanceToUint8_uint8ToResistance_pos (c : ℕ) (hc1 : 1 ≤ c) (hc : c ≤ 255) :
    resistanceToUint8 (uint8ToResistance c) = some c := by
  rw [uint8ToResistance_eq c hc]
  have hcq : (c : ℚ) ≤ 255 := by exact_mod_cast hc
  have hc0 : (0 : ℚ) ≤ c := by positivity
  unfold resistanceToUint8 R_AB_OHM
  have hguard : ¬ (((256 : ℚ) - c) * 1080 / 256 > ((1080 : ℤ) : ℚ) ∨
      ((256 : ℚ) - c) * 1080 / 256 < 0) := by
    push_neg
    constructor
    · push_cast; linarith
    · linarith
  rw [if_neg hguard]
  have h1 : toDouble (((256 : ℚ) - c) * 1080 / 256 * 256)
      = (((256 - (c : ℤ)) * 1080 : ℤ) : ℚ) := by
    have := toDouble_intCast ((256 - (c : ℤ)) * 1080) (by rw [abs_lt]; constructor <;> omega)
    rw [← this]
    congr 1
    push_cast
    ring
  have h2 : toDouble ((((256 - (c : ℤ)) * 1080 : ℤ) : ℚ) / ((1080 : ℤ) : ℚ))
      = ((256 - (c : ℤ) : ℤ) : ℚ) := by
    have := toDouble_intCast (256 - (c : ℤ)) (by rw [abs_lt]; constructor <;> omega)
    rw [← this]
    congr 1
    push_cast
    field_simp
  rw [h1, h2]
  unfold castUint8
  rw [truncToInt_intCast, if_pos (by constructor <;> omega)]
  simp only [Option.map_some']
  congr 1
  omega

/-- C4. For every code `0..255`, `uint8ToResistance` is exactly
`(256 - c) * R_AB / 256` with `R_AB = 1080`; the value lies in `(0, R_AB]`,
code 0 gives `R_AB` and code 255 gives `R_AB / 256`. -/
theorem uint8ToResistance_spec (c : ℕ) (hc : c ≤ 255) :
    uint8ToResistance c = ((256 : ℚ) - c) * (R_AB_OHM : ℚ) / 256 ∧
    0 < uint8ToResistance c ∧ uint8ToResistance c ≤ (R_AB_OHM : ℚ) ∧
    uint8ToResistance 0 = (R_AB_OHM : ℚ) ∧ uint8ToResistance 255 = (R_AB_OHM : ℚ) / 256 := by
  have hcq : (c : ℚ) ≤ 255 := by exact_mod_cast hc
  have hc0 : (0 : ℚ) ≤ c := by positivity
  rw [uint8ToResistance_eq c hc, uint8ToResistance_eq 0 (by decide),
    uint8ToResistance_eq 255 (by decide)]
  unfold R_AB_OHM
  push_cast
  refine ⟨rfl, ?_, ?_, ?_, ?_⟩
  · linarith
  · linarith
  · norm_num
  · norm_num

/-- Witness for C4 at code 100. -/
theorem uint8ToResistance_spec_witness :
    (100 : ℕ) ≤ 255 ∧ uint8ToResistance 100 = ((256 : ℚ) - (100 : ℕ)) * (R_AB_OHM : ℚ) / 256 :=
  ⟨by decide, (uint8ToResistance_spec 100 (by decide)).1⟩


theorem roundNE_le_add (p : ℕ) (emin : ℤ) (x : ℚ) :
    roundNE p emin x ≤ x + 2 ^ ulpExp p emin x / 2 := by
  unfold roundNE
  set f := ulpExp p emin x
  have hpos : (0 : ℚ) < 2 ^ f := zpow_pos (by norm_num) f
  have h := roundHalfEven_le (x / 2 ^ f)
  have h2 := mul_le_mul_of_nonneg_right h (le_of_lt hpos)
  have h3 : (x / 2 ^ f + 1 / 2) * 2 ^ f = x + 2 ^ f / 2 := by
    field_simp
    ring
  linarith

theorem floor_le_roundNE (p : ℕ) (emin : ℤ) (x : ℚ) (hf : ulpExp p emin x ≤ 0) :
    (⌊x⌋ : ℚ) ≤ roundNE p emin x := by
  unfold roundNE
  set f := ulpExp p emin x
  have hpos : (0 : ℚ) < 2 ^ f := zpow_pos (by norm_num) f
  obtain ⟨k, hk⟩ : ∃ k : ℕ, f = -(k : ℤ) := ⟨(-f).toNat, by omega⟩
  have hinv : (2 : ℚ) ^ f * 2 ^ k = 1 := by
    rw [hk, zpow_neg, zpow_natCast]
    field_simp
  have hdiv : x / 2 ^ f = x * 2 ^ k := by
    field_simp
    rw [mul_assoc, mul_comm ((2 : ℚ) ^ k), hinv, mul_one]
  have h1 : ((⌊x⌋ * 2 ^ k : ℤ) : ℚ) ≤ x / 2 ^ f := by
    rw [hdiv]
    push_cast
    exact mul_le_mul_of_nonneg_right (Int.floor_le x) (by positivity)
  have h2 : ⌊x⌋ * 2 ^ k ≤ roundHalfEven (x / 2 ^ f) :=
    le_trans (Int.le_floor.mpr h1) (floor_le_roundHalfEven _)
  have h3 : ((⌊x⌋ * 2 ^ k : ℤ) : ℚ) ≤ (roundHalfEven (x / 2 ^ f) : ℚ) := by exact_mod_cast h2
  have h4 := mul_le_mul_of_nonneg_right h3 (le_of_lt hpos)
  have h5 : ((⌊x⌋ * 2 ^ k : ℤ) : ℚ) * 2 ^ f = (⌊x⌋ : ℚ) := by
    push_cast
    rw [mul_assoc, mul_comm ((2 : ℚ) ^ k), hinv, mul_one]
  linarith

/-- The quotient `value * 256.0 / 1080` of a `float` in `[0, 1080]` never rounds
across an integer: the distance to the next integer is at least
`1 / (1080 * 2 ^ 13)`, far more than half a unit in the last place. -/
theorem floor_toDouble_quot (r : ℚ) (hr : IsFloat32 r) (h0 : 0 ≤ r) (h1 : r ≤ 1080) :
    ⌊toDouble (toDouble (r * 256) / 1080)⌋ = ⌊r * 256 / 1080⌋ := by
  obtain ⟨m, e, hm, he, _, hre⟩ := hr
  -- the product is exact
  have hprod : toDouble (r * 256) = r * 256 := by
    have hm53 : |m| < 2 ^ 53 := lt_trans hm (by norm_num)
    have := toDouble_fix m (e + 8) hm53 (by omega)
    have h8 : (m : ℚ) * 2 ^ (e + 8) = r * 256 := by
      rw [hre, zpow_add₀ (by norm_num : (2 : ℚ) ≠ 0)]
      norm_num
      ring
    rwa [h8] at this
  rw [hprod]
  set q : ℚ := r * 256 / 1080 with hq
  have hq0 : 0 ≤ q := by rw [hq]; positivity
  have hq256 : q ≤ 256 := by rw [hq]; rw [div_le_iff₀ (by norm_num)]; linarith
  by_cases hqz : q = 0
  · rw [hqz]; simp [toDouble, roundNE_zero]
  -- the unit in the last place is at most 2 ^ (-44)
  have hf : ulpExp 53 (-1074) q ≤ -44 := by
    apply ulpExp_le 53 (-1074) (-44) q hqz _ (by norm_num)
    rw [abs_of_nonneg hq0]
    calc q ≤ 256 := hq256
      _ < 2 ^ (((53 : ℕ) : ℤ) + -44) := by norm_num
  have hup : toDouble q ≤ q + 1 / 2 ^ 45 := by
    have h : toDouble q ≤ q + 2 ^ ulpExp 53 (-1074) q / 2 := roundNE_le_add 53 (-1074) q
    have hmono : (2 : ℚ) ^ ulpExp 53 (-1074) q ≤ 2 ^ (-44 : ℤ) :=
      zpow_le_zpow_right₀ (by norm_num) hf
    have h44 : (2 : ℚ) ^ (-44 : ℤ) = 1 / 2 ^ 44 := by
      rw [zpow_neg]; norm_num
    rw [h44] at hmono
    generalize (2 : ℚ) ^ ulpExp 53 (-1074) q = u at h hmono
    have : (1 : ℚ) / 2 ^ 44 / 2 = 1 / 2 ^ 45 := by norm_num
    linarith
  have hlow : (⌊q⌋ : ℚ) ≤ toDouble q := floor_le_roundNE 53 (-1074) q (by omega)
  -- the gap below the next integer
  have hgap : q + 1 / (1080 * 2 ^ 13) ≤ (⌊q⌋ : ℚ) + 1 := by
    by_cases hcase : -21 ≤ e
    · obtain ⟨k, hk⟩ : ∃ k : ℕ, e + 21 = k := ⟨(e + 21).toNat, by omega⟩
      have hM : r * 2 ^ 21 = ((m * 2 ^ k : ℤ) : ℚ) := by
        have h21 : (2 : ℚ) ^ (e + 21) = 2 ^ e * 2 ^ 21 := by
          rw [zpow_add₀ (by norm_num : (2 : ℚ) ≠ 0)]; norm_num
        have hkz : (2 : ℚ) ^ (e + 21) = 2 ^ k := by rw [hk, zpow_natCast]
        push_cast
        rw [hre, mul_assoc, ← h21, hkz]
      have hlt : q < (⌊q⌋ : ℚ) + 1 := Int.lt_floor_add_one q
      have hZ : (0 : ℚ) < ((1080 * 2 ^ 13 * (⌊q⌋ + 1) - m * 2 ^ k : ℤ) : ℚ) := by
        have : ((1080 * 2 ^ 13 * (⌊q⌋ + 1) - m * 2 ^ k : ℤ) : ℚ)
            = 1080 * 2 ^ 13 * ((⌊q⌋ : ℚ) + 1 - q) := by
          push_cast at hM ⊢
          rw [← hM, hq]
          ring
        rw [this]
        have : 0 < (⌊q⌋ : ℚ) + 1 - q := by linarith
        positivity
      have hZ1 : (1 : ℤ) ≤ 1080 * 2 ^ 13 * (⌊q⌋ + 1) - m * 2 ^ k := by
        have : (0 : ℤ) < 1080 * 2 ^ 13 * (⌊q⌋ + 1) - m * 2 ^ k := by exact_mod_cast hZ
        omega
      have hZ2 : (1 : ℚ) ≤ 1080 * 2 ^ 13 * ((⌊q⌋ : ℚ) + 1) - r * 2 ^ 21 := by
        rw [hM]
        exact_mod_cast hZ1
      have : r * 2 ^ 21 = 1080 * 2 ^ 13 * q := by rw [hq]; ring
      rw [this] at hZ2
      have h13 : (0 : ℚ) < 1080 * 2 ^ 13 := by norm_num
      have hK : (1 : ℚ) / (1080 * 2 ^ 13) ≤ (⌊q⌋ : ℚ) + 1 - q := by
        rw [div_le_iff₀ h13]; linarith
      linarith
    · have he22 : e ≤ -22 := by omega
      have hmq : |(m : ℚ)| < 2 ^ 24 := by
        have : ((|m| : ℤ) : ℚ) < ((2 ^ 24 : ℤ) : ℚ) := by exact_mod_cast hm
        simpa using this
      have hr4 : r < 4 := by
        have h2e : (2 : ℚ) ^ e ≤ 2 ^ (-22 : ℤ) := zpow_le_zpow_right₀ (by norm_num) he22
        have hpos : (0 : ℚ) < 2 ^ e := zpow_pos (by norm_num) e
        calc r ≤ |r| := le_abs_self r
          _ = |(m : ℚ)| * 2 ^ e := by rw [hre, abs_mul, abs_of_pos hpos]
          _ ≤ |(m : ℚ)| * 2 ^ (-22 : ℤ) := mul_le_mul_of_nonneg_left h2e (abs_nonneg _)
          _ < 2 ^ 24 * 2 ^ (-22 : ℤ) := mul_lt_mul_of_pos_right hmq (by positivity)
          _ = 4 := by rw [zpow_neg]; norm_num
      have hq1 : q + 1 / (1080 * 2 ^ 13) ≤ 1 := by
        rw [hq]
        have : r * 256 / 1080 ≤ 4 * 256 / 1080 := by
          apply div_le_div_of_nonneg_right _ (by norm_num)
          linarith
        have h2 : (4 : ℚ) * 256 / 1080 + 1 / (1080 * 2 ^ 13) ≤ 1 := by norm_num
        linarith
      have hfl : (0 : ℚ) ≤ (⌊q⌋ : ℚ) := by exact_mod_cast Int.floor_nonneg.mpr hq0
      linarith
  rw [Int.floor_eq_iff]
  refine ⟨hlow, ?_⟩
  have hsmall : (1 : ℚ) / 2 ^ 45 < 1 / (1080 * 2 ^ 13) := by norm_num
  linarith


/-- Inside the guard, `resistanceToUint8` of a `float` is the exact formula
`256 - floor(value * 256 / 1080)` narrowed to 8 bits at the return, as long as
the floor fits in 8 bits; otherwise the conversion has no result. -/
theorem resistanceToUint8_eq (r : ℚ) (hr : IsFloat32 r) (h0 : 0 ≤ r) (h1 : r ≤ 1080) :
    resistanceToUint8 r =
      if ⌊r * 256 / 1080⌋ ≤ 255 then some (((256 - ⌊r * 256 / 1080⌋) % 256).toNat)
      else none := by
  unfold resistanceToUint8 R_AB_OHM
  have hguard : ¬ (r > ((1080 : ℤ) : ℚ) ∨ r < 0) := by
    push_neg
    exact ⟨by push_cast; exact h1, h0⟩
  rw [if_neg hguard]
  have hfl := floor_toDouble_quot r hr h0 h1
  have hq0 : (0 : ℚ) ≤ r * 256 / 1080 := by positivity
  have hfq0 : 0 ≤ ⌊r * 256 / 1080⌋ := Int.floor_nonneg.mpr hq0
  have hfl0 : 0 ≤ ⌊toDouble (toDouble (r * 256) / 1080)⌋ := by
    rw [hfl]; exact hfq0
  have hQ0 : 0 ≤ toDouble (toDouble (r * 256) / 1080) :=
    le_trans (by exact_mod_cast hfl0) (Int.floor_le _)
  have hcast : ((1080 : ℤ) : ℚ) = 1080 := by norm_num
  have htr : truncToInt (toDouble (toDouble (r * 256) / 1080)) = ⌊r * 256 / 1080⌋ := by
    unfold truncToInt
    rw [if_pos hQ0, hfl]
  unfold castUint8
  rw [hcast, htr]
  by_cases h255 : ⌊r * 256 / 1080⌋ ≤ 255
  · rw [if_pos ⟨hfq0, h255⟩, if_pos h255]
    rfl
  · rw [if_neg (fun h => h255 h.2), if_neg h255]
    rfl

theorem isFloat32_intCast (n : ℤ) (hn : |n| < 2 ^ 24) : IsFloat32 (n : ℚ) :=
  ⟨n, 0, hn, by norm_num, by norm_num, by simp⟩

/-- C1 (failing input). At code 0 the resistance is 1080, the quotient
`1080 * 256.0 / 1080` is exactly 256, and `(uint8_t)256.0` is not representable:
the conversion is undefined and the round trip has no defined result. -/
theorem resistanceToUint8_uint8ToResistance_zero :
    uint8ToResistance 0 = 1080 ∧
    toDouble (toDouble (uint8ToResistance 0 * 256) / (R_AB_OHM : ℚ)) = 256 ∧
    castUint8 256 = none ∧
    resistanceToUint8 (uint8ToResistance 0) = none := by
  have hu : uint8ToResistance 0 = 1080 := by
    rw [uint8ToResistance_eq 0 (by decide)]
    norm_num
  have hq : toDouble (toDouble ((1080 : ℚ) * 256) / ((1080 : ℤ) : ℚ)) = 256 := by
    have e1 : toDouble ((1080 : ℚ) * 256) = ((276480 : ℤ) : ℚ) := by
      rw [← toDouble_intCast 276480 (by norm_num)]
      norm_num
    have e2 : toDouble (((276480 : ℤ) : ℚ) / ((1080 : ℤ) : ℚ)) = ((256 : ℤ) : ℚ) := by
      rw [← toDouble_intCast 256 (by norm_num)]
      norm_num
    rw [e1, e2]
    norm_num
  have hc : castUint8 256 = none := by
    have : truncToInt 256 = 256 := by simpa using truncToInt_intCast 256
    unfold castUint8
    rw [this]
    decide
  refine ⟨hu, ?_, hc, ?_⟩
  · rw [hu]
    exact hq
  · rw [hu, resistanceToUint8_eq 1080 (by simpa using isFloat32_intCast 1080 (by norm_num))
      (by norm_num) le_rfl]
    have hf : ⌊(1080 : ℚ) * 256 / 1080⌋ = 256 := by
      rw [Int.floor_eq_iff]; norm_num
    rw [hf]
    decide

/-- C2. Range rejection: every resistance below 0 or above `R_AB` yields the
sentinel 127, which is neither 0 nor 255. -/
theorem resistanceToUint8_out_of_range (r : ℚ) (h : r < 0 ∨ (R_AB_OHM : ℚ) < r) :
    resistanceToUint8 r = some 127 ∧ resistanceToUint8 r ≠ some 0 ∧
    resistanceToUint8 r ≠ some 255 := by
  have h127 : resistanceToUint8 r = some 127 := by
    unfold resistanceToUint8
    rw [if_pos (by rcases h with h | h; exact Or.inr h; exact Or.inl h)]
  rw [h127]
  exact ⟨rfl, by decide, by decide⟩

/-- Witness for C2 at `-1` and at `R_AB + 1`. -/
theorem resistanceToUint8_out_of_range_witness :
    resistanceToUint8 (-1) = some 127 ∧ resistanceToUint8 ((R_AB_OHM : ℚ) + 1) = some 127 :=
  ⟨(resistanceToUint8_out_of_range (-1) (Or.inl (by norm_num))).1,
   (resistanceToUint8_out_of_range ((R_AB_OHM : ℚ) + 1) (Or.inr (by norm_num))).1⟩

/-- C3 (failing input). Resistance 0 is accepted by the guard and its code
`256 - 0` is narrowed to 0, below the code 255 of the larger resistance 5. -/
theorem resistanceToUint8_zero_five :
    (0 : ℚ) ≤ 5 ∧ (5 : ℚ) ≤ (R_AB_OHM : ℚ) ∧
    resistanceToUint8 0 = some 0 ∧ resistanceToUint8 5 = some 255 ∧
    ¬ (∃ a b : ℕ, resistanceToUint8 0 = some a ∧ resistanceToUint8 5 = some b ∧ a ≥ b) := by
  have e0 : resistanceToUint8 0 = some 0 := by
    have := resistanceToUint8_eq 0 (by simpa using isFloat32_intCast 0 (by norm_num))
      le_rfl (by norm_num)
    rw [this]
    norm_num
  have e5 : resistanceToUint8 5 = some 255 := by
    have := resistanceToUint8_eq 5 (by simpa using isFloat32_intCast 5 (by norm_num))
      (by norm_num) (by norm_num)
    rw [this]
    have hf : ⌊(5 : ℚ) * 256 / 1080⌋ = 1 := by
      rw [Int.floor_eq_iff]; norm_num
    rw [hf]
    decide
  refine ⟨by norm_num, by norm_num [R_AB_OHM], e0, e5, ?_⟩
  rintro ⟨a, b, ha, hb, hab⟩
  rw [e0] at ha
  rw [e5] at hb
  cases ha
  cases hb
  omega

/-- C10 (counterexample). The in-range resistance 545 has the valid code 127,
equal to the sentinel. -/
theorem resistanceToUint8_545 :
    IsFloat32 545 ∧ (0 : ℚ) ≤ 545 ∧ (545 : ℚ) ≤ (R_AB_OHM : ℚ) ∧
    resistanceToUint8 545 = some 127 := by
  have hfl : IsFloat32 545 := by simpa using isFloat32_intCast 545 (by norm_num)
  refine ⟨hfl, by norm_num, by norm_num [R_AB_OHM], ?_⟩
  rw [resistanceToUint8_eq 545 hfl (by norm_num) (by norm_num)]
  have hf : ⌊(545 : ℚ) * 256 / 1080⌋ = 129 := by
    rw [Int.floor_eq_iff]; norm_num
  rw [hf]
  decide

/-- C10 (amended). For a `float` resistance in `[0, R_AB]` the result equals
the sentinel 127 exactly when `129 ≤ r * 256 / R_AB < 130`; everywhere else in
the valid range the result differs from 127. -/
theorem resistanceToUint8_eq_sentinel_iff (r : ℚ) (hr : IsFloat32 r) (h0 : 0 ≤ r)
    (h1 : r ≤ (R_AB_OHM : ℚ)) :
    resistanceToUint8 r = some 127 ↔
      129 * (R_AB_OHM : ℚ) ≤ r * 256 ∧ r * 256 < 130 * (R_AB_OHM : ℚ) := by
  have hR : (R_AB_OHM : ℚ) = 1080 := by norm_num [R_AB_OHM]
  rw [hR] at h1 ⊢
  rw [resistanceToUint8_eq r hr h0 h1]
  have hq0 : (0 : ℚ) ≤ r * 256 / 1080 := by positivity
  have hq256 : r * 256 / 1080 ≤ 256 := by rw [div_le_iff₀ (by norm_num)]; linarith
  have hfl0 : 0 ≤ ⌊r * 256 / 1080⌋ := Int.floor_nonneg.mpr hq0
  have hfl256 : ⌊r * 256 / 1080⌋ ≤ 256 := by
    have : (⌊r * 256 / 1080⌋ : ℚ) ≤ 256 := le_trans (Int.floor_le _) hq256
    exact_mod_cast this
  have hkey : (if ⌊r * 256 / 1080⌋ ≤ 255 then some (((256 - ⌊r * 256 / 1080⌋) % 256).toNat)
      else none) = some 127 ↔ ⌊r * 256 / 1080⌋ = 129 := by
    split_ifs with h255
    · rw [Option.some.injEq]
      omega
    · constructor
      · intro h; cases h
      · intro h; omega
  rw [hkey, Int.floor_eq_iff, le_div_iff₀ (by norm_num), div_lt_iff₀ (by norm_num)]
  norm_num

/-- Witness for the amended C10 at 500, outside the colliding band. -/
theorem resistanceToUint8_eq_sentinel_iff_witness :
    IsFloat32 500 ∧ (0 : ℚ) ≤ 500 ∧ (500 : ℚ) ≤ (R_AB_OHM : ℚ) ∧
    (resistanceToUint8 500 = some 127 ↔
      129 * (R_AB_OHM : ℚ) ≤ 500 * 256 ∧ (500 : ℚ) * 256 < 130 * (R_AB_OHM : ℚ)) :=
  ⟨by simpa using isFloat32_intCast 500 (by norm_num), by norm_num, by norm_num [R_AB_OHM],
   resistanceToUint8_eq_sentinel_iff 500 (by simpa using isFloat32_intCast 500 (by norm_num))
     (by norm_num) (by norm_num [R_AB_OHM])⟩

/-! ## Wiper transactions -/

/-- C5. Channel validation: for a channel other than 1 and 3, `writeRDAC` and
`readRDAC` return 1 and leave the system as it was: no primitive is called,
and `*value` is untouched. -/
theorem invalid_channel_no_bus {σ : Type} (W : Wire σ) (channel code value : ℕ) (s : Sys σ)
    (h1 : channel ≠ 1) (h3 : channel ≠ 3) :
    writeRDAC W channel code s = (1, s) ∧ readRDAC W channel value s = (1, value, s) := by
  constructor
  · unfold writeRDAC
    rw [if_pos ⟨h1, h3⟩]
  · unfold readRDAC
    rw [if_pos ⟨h1, h3⟩]

/-- Witness for C5 at channel 2 on the scripted transport. -/
theorem invalid_channel_no_bus_witness :
    writeRDAC scriptWire 2 200 ⟨⟨[], 1, 7⟩, []⟩ = (1, ⟨⟨[], 1, 7⟩, []⟩) ∧
    readRDAC scriptWire 2 9 ⟨⟨[], 1, 7⟩, []⟩ = (1, 9, ⟨⟨[], 1, 7⟩, []⟩) :=
  invalid_channel_no_bus scriptWire 2 200 9 ⟨⟨[], 1, 7⟩, []⟩ (by decide) (by decide)

/-- C6. Write transaction: for channel 1 or 3, `writeRDAC` calls exactly
`beginTransmission(0x2C)`, `write(channel)`, `write(code)`, `endTransmission()`
in this order, threads the device state through them, and returns the status
reported by `endTransmission` (as a byte). -/
theorem writeRDAC_transaction {σ : Type} (W : Wire σ) (channel code : ℕ) (s : Sys σ)
    (h : channel = 1 ∨ channel = 3) :
    (writeRDAC W channel code s).2.calls =
      s.calls ++ [WireCall.beginTransmission 0x2C, WireCall.write channel, WireCall.write code,
        WireCall.endTransmission] ∧
    (writeRDAC W channel code s).2.dev =
      (W.endTransmission (W.write code (W.write channel (W.beginTransmission 0x2C s.dev)))).2 ∧
    (writeRDAC W channel code s).1 =
      (W.endTransmission (W.write code (W.write channel (W.beginTransmission 0x2C s.dev)))).1
        % 256 ∧
    ((W.endTransmission (W.write code (W.write channel (W.beginTransmission 0x2C s.dev)))).1
        < 256 →
      (writeRDAC W channel code s).1 =
        (W.endTransmission (W.write code (W.write channel (W.beginTransmission 0x2C s.dev)))).1) := by
  have hg : ¬ (channel ≠ 1 ∧ channel ≠ 3) := by omega
  unfold writeRDAC
  rw [if_neg hg]
  simp only [busBegin, busWrite, busEnd, I2C_Address]
  split_ifs with he
  · refine ⟨by simp, rfl, rfl, fun hlt => Nat.mod_eq_of_lt hlt⟩
  · have he0 : (W.endTransmission
        (W.write code (W.write channel (W.beginTransmission 0x2C s.dev)))).1 % 256 = 0 := by
      simpa using he
    refine ⟨by simp, rfl, he0.symm, fun hlt => ?_⟩
    rw [Nat.mod_eq_of_lt hlt] at he0
    exact he0.symm

/-- Witness for C6: channel 3, code 200, a close reporting status 4. -/
theorem writeRDAC_transaction_witness :
    (writeRDAC scriptWire 3 200 ⟨⟨[4], 1, 7⟩, []⟩).2.calls =
      [WireCall.beginTransmission 0x2C, WireCall.write 3, WireCall.write 200,
        WireCall.endTransmission] ∧
    (writeRDAC scriptWire 3 200 ⟨⟨[4], 1, 7⟩, []⟩).1 = 4 :=
  ⟨(writeRDAC_transaction scriptWire 3 200 ⟨⟨[4], 1, 7⟩, []⟩ (Or.inr rfl)).1,
   (writeRDAC_transaction scriptWire 3 200 ⟨⟨[4], 1, 7⟩, []⟩ (Or.inr rfl)).2.2.2 (by decide)⟩

/-- For channel 1 or 3, only the status of the second close decides the
channel-select phase of `readRDAC`: when it is non-zero (as a byte) that status
is returned, `*value` is untouched and no read request is issued, whatever the
first close reported. -/
theorem readRDAC_second_close_fails {σ : Type} (W : Wire σ) (channel value : ℕ) (s : Sys σ)
    (h : channel = 1 ∨ channel = 3)
    (hst : (W.endTransmission (W.endTransmission
      (W.write channel (W.beginTransmission 0x2C s.dev))).2).1 % 256 ≠ 0) :
    (readRDAC W channel value s).1 = (W.endTransmission (W.endTransmission
      (W.write channel (W.beginTransmission 0x2C s.dev))).2).1 % 256 ∧
    (readRDAC W channel value s).2.1 = value ∧
    (readRDAC W channel value s).2.2.calls =
      s.calls ++ [WireCall.beginTransmission 0x2C, WireCall.write channel,
        WireCall.endTransmission, WireCall.endTransmission] := by
  have hg : ¬ (channel ≠ 1 ∧ channel ≠ 3) := by omega
  unfold readRDAC
  rw [if_neg hg]
  simp only [busBegin, busWrite, busEnd, I2C_Address]
  rw [if_pos hst]
  simp

/-- For channel 1 or 3, when the second close reports 0 and `available()` is
not 1 after the read request, `readRDAC` returns 0 and stores 0 in `*value`,
whatever the first close reported. -/
theorem readRDAC_not_available {σ : Type} (W : Wire σ) (channel value : ℕ) (s : Sys σ)
    (h : channel = 1 ∨ channel = 3)
    (hst : (W.endTransmission (W.endTransmission
      (W.write channel (W.beginTransmission 0x2C s.dev))).2).1 % 256 = 0)
    (hav : (W.available (W.requestFrom 0x2C 1 (W.endTransmission (W.endTransmission
      (W.write channel (W.beginTransmission 0x2C s.dev))).2).2)).1 ≠ 1) :
    (readRDAC W channel value s).1 = 0 ∧ (readRDAC W channel value s).2.1 = 0 := by
  have hg : ¬ (channel ≠ 1 ∧ channel ≠ 3) := by omega
  unfold readRDAC
  rw [if_neg hg]
  simp only [busBegin, busWrite, busEnd, busRequest, busAvailable, I2C_Address]
  rw [if_neg (by simpa using hst), if_neg hav]
  simp

/-- C7 (failing input). On channel 1, with the first close reporting status 2
and the second reporting 0, `readRDAC` returns 0, issues the read request and
stores the byte read: the status of the first close is dropped. -/
theorem readRDAC_first_close_dropped :
    readRDAC scriptWire 1 9 ⟨⟨[2, 0], 1, 77⟩, []⟩ =
      (0, 77, ⟨⟨[], 1, 77⟩,
        [WireCall.beginTransmission 0x2C, WireCall.write 1, WireCall.endTransmission,
         WireCall.endTransmission, WireCall.requestFrom 0x2C 1, WireCall.available,
         WireCall.read]⟩) := by
  rfl

/-- C8 (failing input). On channel 1, with both closes reporting 0 and no byte
available after the read request, `readRDAC` returns 0 and overwrites `*value`
(9 before) with 0 without calling `read`. -/
theorem readRDAC_no_data_reports_success :
    readRDAC scriptWire 1 9 ⟨⟨[0, 0], 0, 77⟩, []⟩ =
      (0, 0, ⟨⟨[], 0, 77⟩,
        [WireCall.beginTransmission 0x2C, WireCall.write 1, WireCall.endTransmission,
         WireCall.endTransmission, WireCall.requestFrom 0x2C 1, WireCall.available]⟩) := by
  rfl

/-- C9. Write/read symmetry on the echoing mock, from any mock state: for every
code `0..255`, `writeRDAC(1, c)` returns 0 and the following
`readRDAC(1, &v)` returns 0 and leaves `v = c`. -/
theorem write_then_read_echo (c v : ℕ) (s : Sys EchoState) (hc : c ≤ 255) :
    (writeRDAC echoWire 1 c s).1 = 0 ∧
    (readRDAC echoWire 1 v (writeRDAC echoWire 1 c s).2).1 = 0 ∧
    (readRDAC echoWire 1 v (writeRDAC echoWire 1 c s).2).2.1 = c := by
  have hc1 : ¬ 255 < c := by omega
  have hc2 : ¬ (c : ℤ) < 0 := by omega
  simp [writeRDAC, readRDAC, busBegin, busWrite, busEnd, busRequest, busAvailable, busRead,
    echoWire, EchoState.close, I2C_Address, hc1, hc2]
  omega

/-- Witness for C9 at code 200. -/
theorem write_then_read_echo_witness :
    (readRDAC echoWire 1 0 (writeRDAC echoWire 1 200 ⟨⟨fun _ => 0, 0, [], []⟩, []⟩).2).2.1 = 200 :=
  (write_then_read_echo 200 0 ⟨⟨fun _ => 0, 0, [], []⟩, []⟩ (by decide)).2.2

end AD5252
